import Mathlib
/-!
Verification of the SpeechTide `ax-insert` native module
(`src/native/ax-insert/src/ax-insert.cpp`).

The module synthesizes keyboard input on macOS.  Its core is:
  * a chunking engine (`KeyboardInputSystem::adjustChunkSize` and the loop
    in `KeyboardInputSystem::inputLargeTextOptimized`) that splits a UTF-8
    byte string into chunks of at most `chunkSize` bytes, backing the
    boundary off by one byte when the byte before the boundary looks like
    a UTF-8 multi-byte lead byte;
  * an input injector (`KeyboardInputSystem::inputUnicodeText`) that
    re-encodes each chunk to UTF-16 code units and posts one key-down and
    one key-up event per code unit;
  * a binding layer (`AxInsertBinding::InsertText`,
    `AxInsertBinding::simulateKeyboardInput`) and a lazily constructed
    process-wide singleton (`getKeyboardSystem`).

Texts are modelled as lists of byte values (`List Nat`, each < 256),
UTF-16 code units as `Nat`, and posted events as an explicit trace.
Platform calls that may fail nondeterministically
(`CGEventCreateKeyboardEvent`) are modelled by boolean oracles indexed by
the loop counter of the character loop.
-/

set_option maxRecDepth 10000

/-- Translation of `KeyboardInputSystem::adjustChunkSize`
(ax-insert.cpp lines 100-124).  `text[endPosition - 1]` is modelled with
`List.getD _ 0`; the C++ code only reads that index when
`endPosition < text.length()`, in which case it is in bounds. -/
def adjustChunkSize (text : List Nat) (position chunkSize : Nat) : Nat :=
  let endPosition := position + chunkSize
  if text.length ≤ endPosition then
    text.length - position
  else
    let lastByte := text.getD (endPosition - 1) 0
    if lastByte &&& 0xE0 = 0xC0 then
      chunkSize - 1
    else if lastByte &&& 0xF0 = 0xE0 then
      chunkSize - 1
    else if lastByte &&& 0xF8 = 0xF0 then
      chunkSize - 1
    else
      chunkSize

/-- The chunk-producing part of the loop of
`KeyboardInputSystem::inputLargeTextOptimized` (ax-insert.cpp lines 70-94):
starting at `position`, repeatedly take `min chunkSize remaining` bytes
adjusted by `adjustChunkSize`, and collect the chunks
(`text.substr(position, adjustedChunkSize)`).  The C++ `while` loop has no
built-in bound, so the recursion carries explicit `fuel`; `none` means the
loop did not finish within `fuel` iterations. -/
def chunksGo (text : List Nat) (chunkSize : Nat) : Nat → Nat → Option (List (List Nat))
  | 0, position =>
    if position < text.length then none else some []
  | fuel + 1, position =>
    if position < text.length then
      let adjusted := adjustChunkSize text position (min chunkSize (text.length - position))
      match chunksGo text chunkSize fuel (position + adjusted) with
      | some rest => some (((text.drop position).take adjusted) :: rest)
      | none => none
    else
      some []

/-- The chunk sequence produced by the chunking loop, run from position 0
with fuel `text.length` (enough iterations whenever every chunk is
non-empty, since each iteration then consumes at least one byte). -/
def chunks (text : List Nat) (chunkSize : Nat) : Option (List (List Nat)) :=
  chunksGo text chunkSize text.length 0

/-- 999 one-byte characters (`a`) followed by one four-byte character
(U+1F600, bytes `F0 9F 98 80`): the end-to-end scenario of claim C4. -/
def exFourByte : List Nat := List.replicate 999 0x61 ++ [0xF0, 0x9F, 0x98, 0x80]

/-- A UTF-8 continuation byte (10xxxxxx). -/
def isCont (b : Nat) : Bool := 0x80 ≤ b && b < 0xC0

/-- A well-formed 2-byte UTF-8 sequence: lead in C2..DF (C0/C1 would be
overlong), one continuation byte. -/
def utf8Two (b0 b1 : Nat) : Bool := 0xC2 ≤ b0 && b0 < 0xE0 && isCont b1

/-- The scalar value encoded by a 2-byte UTF-8 sequence. -/
def cp2 (b0 b1 : Nat) : Nat := (b0 - 0xC0) * 64 + (b1 - 0x80)

/-- The scalar value encoded by a 3-byte UTF-8 sequence. -/
def cp3 (b0 b1 b2 : Nat) : Nat := (b0 - 0xE0) * 4096 + (b1 - 0x80) * 64 + (b2 - 0x80)

/-- A well-formed 3-byte UTF-8 sequence: lead in E0..EF, two continuation
bytes, not overlong, not a surrogate. -/
def utf8Three (b0 b1 b2 : Nat) : Bool :=
  0xE0 ≤ b0 && b0 < 0xF0 && isCont b1 && isCont b2 &&
    !(cp3 b0 b1 b2 < 0x800 || (0xD800 ≤ cp3 b0 b1 b2 && cp3 b0 b1 b2 < 0xE000))

/-- The scalar value encoded by a 4-byte UTF-8 sequence. -/
def cp4 (b0 b1 b2 b3 : Nat) : Nat :=
  (b0 - 0xF0) * 0x40000 + (b1 - 0x80) * 4096 + (b2 - 0x80) * 64 + (b3 - 0x80)

/-- A well-formed 4-byte UTF-8 sequence: lead in F0..F4, three
continuation bytes, in the range 0x10000..0x10FFFF. -/
def utf8Four (b0 b1 b2 b3 : Nat) : Bool :=
  0xF0 ≤ b0 && b0 < 0xF5 && isCont b1 && isCont b2 && isCont b3 &&
    !(cp4 b0 b1 b2 b3 < 0x10000 || 0x110000 ≤ cp4 b0 b1 b2 b3)

/-- Decode one UTF-8 sequence from the front of a byte list, returning
the scalar value and the number of bytes consumed, or `none` if the front
is malformed.  Missing bytes are represented by the out-of-range sentinel
256, which fails every byte test, so a too-short list is malformed. -/
def utf8DecodeOne (l : List Nat) : Option (Nat × Nat) :=
  if l.getD 0 256 < 0x80 then some (l.getD 0 256, 1)
  else if utf8Two (l.getD 0 256) (l.getD 1 256) then
    some (cp2 (l.getD 0 256) (l.getD 1 256), 2)
  else if utf8Three (l.getD 0 256) (l.getD 1 256) (l.getD 2 256) then
    some (cp3 (l.getD 0 256) (l.getD 1 256) (l.getD 2 256), 3)
  else if utf8Four (l.getD 0 256) (l.getD 1 256) (l.getD 2 256) (l.getD 3 256) then
    some (cp4 (l.getD 0 256) (l.getD 1 256) (l.getD 2 256) (l.getD 3 256), 4)
  else none

/-- Decode a whole byte list as UTF-8, one sequence at a time; `fuel`
bounds the recursion and `l.length` is always enough since every step
consumes at least one byte. -/
def utf8DecodeGo : Nat → List Nat → Option (List Nat)
  | _, [] => some []
  | 0, _ :: _ => none
  | fuel + 1, b0 :: rest =>
    match utf8DecodeOne (b0 :: rest) with
    | none => none
    | some (cp, k) => (utf8DecodeGo fuel ((b0 :: rest).drop k)).map (cp :: ·)

/-- Decode a byte list as UTF-8 into the list of Unicode scalar values it
encodes, or `none` on any malformed content.  This models the strict
UTF-8 validation performed by `CFStringCreateWithCString` with
`kCFStringEncodingUTF8` (ax-insert.cpp lines 134-138): truncated
sequences, stray continuation bytes, overlong forms, surrogates and
out-of-range values are rejected. -/
def utf8Decode (l : List Nat) : Option (List Nat) := utf8DecodeGo l.length l

/-- The UTF-16 encoding of one Unicode scalar value: one code unit for
values below 0x10000 and a surrogate pair otherwise.  This is how
`CFString` stores the decoded text internally and thus what
`CFStringGetCharacters` hands back (ax-insert.cpp lines 146-148). -/
def utf16EncodeChar (cp : Nat) : List Nat :=
  if cp < 0x10000 then [cp]
  else [0xD800 + (cp - 0x10000) / 0x400, 0xDC00 + (cp - 0x10000) % 0x400]

/-- The UTF-16 code-unit sequence of a list of Unicode scalar values. -/
def utf16Encode (cps : List Nat) : List Nat :=
  cps.flatMap utf16EncodeChar

/-- Decode a UTF-16 code-unit sequence back into Unicode scalar values
(used only to state that re-encoding is semantically faithful). -/
def utf16Decode : List Nat → Option (List Nat)
  | [] => some []
  | [u] =>
    if u < 0xD800 || 0xE000 ≤ u then some [u] else none
  | u :: u2 :: rest =>
    if u < 0xD800 || 0xE000 ≤ u then (utf16Decode (u2 :: rest)).map (u :: ·)
    else if u < 0xDC00 then
      if 0xDC00 ≤ u2 && u2 < 0xE000 then
        (utf16Decode rest).map ((0x10000 + (u - 0xD800) * 0x400 + (u2 - 0xDC00)) :: ·)
      else none
    else none

/-- `text.c_str()` (ax-insert.cpp line 136) hands `CFStringCreateWithCString`
the bytes up to the first NUL byte only. -/
def cString (bytes : List Nat) : List Nat :=
  bytes.takeWhile (· ≠ 0)

/-- The UTF-8 → UTF-16 conversion performed at the start of
`KeyboardInputSystem::inputUnicodeText` (ax-insert.cpp lines 133-148):
interpret the chunk's C string as UTF-8 (`none` models
`CFStringCreateWithCString` returning NULL on malformed input) and read
the resulting string back as UTF-16 code units. -/
def utf8ToUtf16 (bytes : List Nat) : Option (List Nat) :=
  (utf8Decode (cString bytes)).map utf16Encode

/-- One observable action of the injector: posting a key-down or key-up
event carrying one UTF-16 code unit to the event tap, or sleeping for a
number of microseconds. -/
inductive Event where
  | down (u : Nat)
  | up (u : Nat)
  | delay (us : Nat)
deriving DecidableEq

/-- The per-character loop of `KeyboardInputSystem::inputUnicodeText`
(ax-insert.cpp lines 151-174), run from loop index `i`.  The boolean
oracles `downOk` and `upOk` tell whether the `CGEventCreateKeyboardEvent`
call for the key-down (resp. key-up) event of loop iteration `i`
succeeds.  When the key-down creation fails the whole iteration body is
skipped (no events, no delay); when only the key-up creation fails the
key-down is still posted and the 5 ms inter-character delay still
happens. -/
def charEvents (downOk upOk : Nat → Bool) : Nat → List Nat → List Event
  | _, [] => []
  | i, u :: us =>
    (if downOk i then
      Event.down u :: ((if upOk i then [Event.up u] else []) ++ [Event.delay 5000])
    else []) ++ charEvents downOk upOk (i + 1) us

/-- `KeyboardInputSystem::inputUnicodeText` (ax-insert.cpp lines 131-178):
convert the chunk to UTF-16; on conversion failure report failure with no
events; otherwise post the per-character events and report success. -/
def inputUnicodeText (downOk upOk : Nat → Bool) (text : List Nat) : Bool × List Event :=
  match utf8ToUtf16 text with
  | none => (false, [])
  | some units => (true, charEvents downOk upOk 0 units)

/-- `KeyboardInputSystem::inputTextInternal` (ax-insert.cpp lines 126-129)
just forwards to `inputUnicodeText`. -/
def inputTextInternal (downOk upOk : Nat → Bool) (text : List Nat) : Bool × List Event :=
  inputUnicodeText downOk upOk text

/-- The delivery loop of `KeyboardInputSystem::inputLargeTextOptimized`
(ax-insert.cpp lines 65-97): take the adjusted chunk at the current
position, deliver it (returning failure immediately when the chunk
fails), advance, and sleep 100 ms between chunks.  `fuel` bounds the
iterations as in `chunksGo`; the returned event list is the whole trace
posted, in order. -/
def deliverGo (downOk upOk : Nat → Bool) (text : List Nat) (chunkSize : Nat) :
    Nat → Nat → Option (Bool × List Event)
  | 0, position =>
    if position < text.length then none else some (true, [])
  | fuel + 1, position =>
    if position < text.length then
      let adjusted := adjustChunkSize text position (min chunkSize (text.length - position))
      let chunk := (text.drop position).take adjusted
      match inputTextInternal downOk upOk chunk with
      | (false, evs) => some (false, evs)
      | (true, evs) =>
        if position + adjusted < text.length then
          match deliverGo downOk upOk text chunkSize fuel (position + adjusted) with
          | some r => some (r.1, evs ++ Event.delay 100000 :: r.2)
          | none => none
        else
          some (true, evs)
    else
      some (true, [])

/-- The state of a `KeyboardInputSystem` object: the `_source` event
source handle (`none` models NULL) and the `_isInitialized` flag. -/
structure KIS where
  source : Option Nat
  isInitialized : Bool
deriving DecidableEq

/-- `KeyboardInputSystem::inputLargeText` (ax-insert.cpp lines 45-62):
fail with no events while uninitialized; succeed trivially on the empty
text; use the chunked path for texts longer than `chunkSize` and the
direct single-chunk path otherwise.  The C++ default argument is
`chunkSize = 1000`. -/
def KIS.inputLargeText (k : KIS) (downOk upOk : Nat → Bool) (text : List Nat)
    (chunkSize : Nat) : Option (Bool × List Event) :=
  if k.isInitialized = false then some (false, [])
  else if text = [] then some (true, [])
  else if chunkSize < text.length then
    deliverGo downOk upOk text chunkSize text.length 0
  else
    some (inputTextInternal downOk upOk text)

/-- `AxInsertBinding::simulateKeyboardInput` (ax-insert.cpp lines 242-263),
given the singleton instance `k` returned by `getKeyboardSystem`: fail if
the system is not initialized, otherwise call `inputLargeText` with the
default chunk size 1000. -/
def simulateKeyboardInput (downOk upOk : Nat → Bool) (k : KIS) (text : List Nat) :
    Option (Bool × List Event) :=
  if k.isInitialized = false then some (false, [])
  else k.inputLargeText downOk upOk text 1000

/-- The object returned by `AxInsertBinding::InsertText`
(ax-insert.cpp lines 230-235). -/
structure InsertTextResult where
  success : Bool
  method : String
  error : Option String
deriving DecidableEq

/-- `AxInsertBinding::InsertText` (ax-insert.cpp lines 210-236): run the
keyboard simulation and package its boolean outcome; the event trace is
carried along to state claims about posted events. -/
def InsertText (downOk upOk : Nat → Bool) (k : KIS) (text : List Nat) :
    Option (InsertTextResult × List Event) :=
  (simulateKeyboardInput downOk upOk k text).map fun r =>
    (InsertTextResult.mk r.1 (if r.1 then "keyboard" else "")
      (if r.1 then none else some "键盘模拟输入失败"), r.2)

/-- The platform side of `CGEventSourceCreate`: `creates` counts the
create calls made so far (also serving as the next fresh handle id) and
`live` lists the handles created and not yet released. -/
structure World where
  creates : Nat
  live : List Nat
deriving DecidableEq

/-- One `CGEventSourceCreate` call: the oracle `ok` says whether the
platform grants an event source for the n-th call; on success a fresh
handle is returned and becomes live. -/
def createSource (ok : Nat → Bool) (w : World) : World × Option Nat :=
  if ok w.creates then (World.mk (w.creates + 1) (w.creates :: w.live), some w.creates)
  else (World.mk (w.creates + 1) w.live, none)

/-- `KeyboardInputSystem::initialize` (ax-insert.cpp lines 38-42), called
on state `_k`: unconditionally create a new event source, overwrite
`_source` with it — without releasing any previously held handle — and
set `_isInitialized`.  (Named `initSource` here.) -/
def KIS.initSource (ok : Nat → Bool) (w : World) (_k : KIS) : World × KIS × Bool :=
  match createSource ok w with
  | (w', s) => (w', KIS.mk s s.isSome, s.isSome)

/-- The `KeyboardInputSystem` constructor (ax-insert.cpp lines 24-26):
start from NULL source / uninitialized and run `initialize`. -/
def KIS.construct (ok : Nat → Bool) (w : World) : World × KIS × Bool :=
  KIS.initSource ok w (KIS.mk none false)

/-- `getKeyboardSystem` (ax-insert.cpp lines 187-193): return the global
singleton `g`, constructing it on first use. -/
def getKeyboardSystem (ok : Nat → Bool) (w : World) (g : Option KIS) :
    World × Option KIS × KIS :=
  match g with
  | some k => (w, some k, k)
  | none =>
    match KIS.construct ok w with
    | (w', k, _) => (w', some k, k)

/-- Delivery of an explicit chunk list: one chunk at a time, abort on the
first failing chunk, with the 100 ms inter-chunk delay after every chunk
followed by another one.  This is the delivery loop re-expressed over the
chunk list it walks. -/
def runChunks (downOk upOk : Nat → Bool) : List (List Nat) → Bool × List Event
  | [] => (true, [])
  | c :: cs =>
    match inputTextInternal downOk upOk c with
    | (false, evs) => (false, evs)
    | (true, evs) =>
      match cs with
      | [] => (true, evs)
      | _ :: _ =>
        match runChunks downOk upOk cs with
        | (ok2, evs2) => (ok2, evs ++ Event.delay 100000 :: evs2)

/-- The events a successfully delivered prefix of chunks leaves in the
trace: each chunk's own events followed by the inter-chunk delay that
precedes the next chunk. -/
def preTrace (downOk upOk : Nat → Bool) (pre : List (List Nat)) : List Event :=
  pre.flatMap fun c => (inputTextInternal downOk upOk c).2 ++ [Event.delay 100000]

/-- The code units posted as key-down events, in order: the character
sequence actually delivered to the event tap. -/
def downs : List Event → List Nat
  | [] => []
  | Event.down u :: es => u :: downs es
  | Event.up _ :: es => downs es
  | Event.delay _ :: es => downs es

/-- 998 `a` bytes, the three-byte character U+4E2D, then `a`: 1002 bytes,
so one insertion call chunks it at the default size 1000, and the
boundary falls after the second byte of the three-byte character — its
byte before the boundary is the continuation byte `B8`, which matches no
lead pattern, so the one-byte backoff does not fire. -/
def exSplit : List Nat := List.replicate 998 0x61 ++ [0xE4, 0xB8, 0xAD, 0x61]

example : chunks [0x61, 0x62, 0x63] 2 = some [[0x61, 0x62], [0x63]] := by decide

example : chunks [0x61, 0xC3, 0xA9] 2 = some [[0x61], [0xC3, 0xA9]] := by decide

example : chunks [] 5 = some [] := by decide

example : chunks [0xC3, 0xA9, 0x61] 1 = none := by decide

example : adjustChunkSize [0xC3, 0xA9, 0x61] 0 1 = 0 := by decide

/-- The adjusted chunk size never exceeds the candidate chunk size. -/
lemma adjustChunkSize_le (text : List Nat) (position chunkSize : Nat) :
    adjustChunkSize text position chunkSize ≤ chunkSize := by
  simp only [adjustChunkSize]
  split_ifs <;> omega

/-- With a maximum chunk size of at least 2, the adjusted size of the
chunk the loop would take at a position strictly inside the text is at
least 1 (the loop always makes progress). -/
lemma adjustChunkSize_pos (text : List Nat) (S position : Nat) (hS : 2 ≤ S)
    (hp : position < text.length) :
    1 ≤ adjustChunkSize text position (min S (text.length - position)) := by
  simp only [adjustChunkSize]
  split_ifs <;> omega

/-- With a maximum chunk size of at least 2 and enough fuel, the chunking
loop finishes, its chunks concatenate to the remaining text, and every
chunk is non-empty. -/
lemma chunksGo_complete (text : List Nat) (S : Nat) (hS : 2 ≤ S) :
    ∀ fuel position, text.length - position ≤ fuel →
      ∃ cs, chunksGo text S fuel position = some cs ∧
        cs.flatten = text.drop position ∧ ∀ c ∈ cs, c ≠ [] := by
  intro fuel
  induction fuel with
  | zero =>
    intro position hpos
    have h : ¬ position < text.length := by omega
    refine ⟨[], by simp [chunksGo, h], ?_, by simp⟩
    simp [List.drop_eq_nil_of_le (by omega : text.length ≤ position)]
  | succ fuel ih =>
    intro position hpos
    by_cases hp : position < text.length
    · have ha1 : 1 ≤ adjustChunkSize text position (min S (text.length - position)) :=
        adjustChunkSize_pos text S position hS hp
      have ha2 : adjustChunkSize text position (min S (text.length - position)) ≤
          min S (text.length - position) := adjustChunkSize_le _ _ _
      obtain ⟨cs, hgo, hjoin, hne⟩ :=
        ih (position + adjustChunkSize text position (min S (text.length - position)))
          (by omega)
      refine ⟨(text.drop position).take
          (adjustChunkSize text position (min S (text.length - position))) :: cs,
        ?_, ?_, ?_⟩
      · simp [chunksGo, hp, hgo]
      · rw [List.flatten_cons, hjoin]
        exact List.drop_take_append_drop text position _
      · intro c hc
        rcases List.mem_cons.mp hc with hc | hc
        · subst hc
          have hl : 0 < ((text.drop position).take
              (adjustChunkSize text position (min S (text.length - position)))).length := by
            rw [List.length_take, List.length_drop]
            omega
          exact List.ne_nil_of_length_pos hl
        · exact hne c hc
    · refine ⟨[], by simp [chunksGo, hp], ?_, by simp⟩
      simp [List.drop_eq_nil_of_le (by omega : text.length ≤ position)]

/-- With chunk size 1 and a UTF-8 lead byte as the first byte of a text of
length > 1, `adjustChunkSize` returns 0, so the loop never advances: no
amount of fuel lets the chunking loop finish. -/
lemma chunksGo_stuck_at_one : ∀ fuel, chunksGo [0xC3, 0xA9, 0x61] 1 fuel 0 = none := by
  intro fuel
  induction fuel with
  | zero => rfl
  | succ fuel ih =>
    have h1 : (195 : Nat) &&& 224 = 192 := by decide
    simp [chunksGo, adjustChunkSize, h1, ih]

/-- Claim C1 as stated fails: with chunk size 1 and the text
`0xC3 0xA9 0x61` (the two-byte character U+00E9 followed by `a`), the
chunking loop does not produce a chunk sequence at all — `adjustChunkSize`
returns 0 at position 0, the loop never advances, and the fuel
`text.length` (an upper bound on the iterations of any run in which every
chunk is non-empty) is exhausted. -/
theorem chunks_roundtrip_cex : chunks [0xC3, 0xA9, 0x61] 1 = none := by decide

/-- Claim C1, amended to chunk sizes S ≥ 2: for every non-empty text and
every chunk size S ≥ 2, the chunking loop produces a finite chunk
sequence whose in-order concatenation is exactly the original byte
sequence (no gaps, no overlaps). -/
theorem chunks_roundtrip (text : List Nat) (S : Nat) (_ht : text ≠ []) (hS : 2 ≤ S) :
    ∃ cs, chunks text S = some cs ∧ cs.flatten = text := by
  obtain ⟨cs, hgo, hjoin, _⟩ := chunksGo_complete text S hS text.length 0 (by omega)
  exact ⟨cs, hgo, by simpa using hjoin⟩

/-- Witness for `chunks_roundtrip` at text `a é` and chunk size 2. -/
theorem chunks_roundtrip_witness :
    ∃ cs, chunks [0x61, 0xC3, 0xA9] 2 = some cs ∧ cs.flatten = [0x61, 0xC3, 0xA9] :=
  chunks_roundtrip [0x61, 0xC3, 0xA9] 2 (by decide) (by decide)

/-- Claim C3 as stated fails at chunk size 1: at position 0 of the text
`0xC3 0xA9 0x61` the loop passes `min 1 (3 - 0) = 1` to `adjustChunkSize`,
which returns 0 — not ≥ 1 as claimed — and the loop (here run with fuel 3)
makes no progress and never terminates. -/
theorem chunks_termination_cex :
    adjustChunkSize [0xC3, 0xA9, 0x61] 0 (min 1 (3 - 0)) = 0 ∧
    chunksGo [0xC3, 0xA9, 0x61] 1 3 0 = none := by decide

/-- Claim C3, amended to chunk sizes ≥ 2: for every text and every
maxChunkSize ≥ 2 the chunking loop terminates with a finite chunk
sequence, every produced chunk is non-empty, and the empty text yields no
chunks.  (For maxChunkSize = 1 the adjusted size can be 0 and the loop
then never advances, see `chunks_termination_cex` and
`chunksGo_stuck_at_one`.) -/
theorem chunks_termination (text : List Nat) (S : Nat) (hS : 2 ≤ S) :
    ∃ cs, chunks text S = some cs ∧ (∀ c ∈ cs, c ≠ []) ∧ (text = [] → cs = []) := by
  obtain ⟨cs, hgo, hjoin, hne⟩ := chunksGo_complete text S hS text.length 0 (by omega)
  refine ⟨cs, hgo, hne, ?_⟩
  intro h
  subst h
  simp only [chunks, chunksGo, List.length_nil] at hgo
  simp at hgo
  exact hgo

/-- Witness for `chunks_termination` at text `abc` and chunk size 2. -/
theorem chunks_termination_witness :
    ∃ cs, chunks [0x61, 0x62, 0x63] 2 = some cs ∧ (∀ c ∈ cs, c ≠ []) ∧
      ([0x61, 0x62, 0x63] = ([] : List Nat) → cs = []) :=
  chunks_termination [0x61, 0x62, 0x63] 2 (by decide)

set_option maxRecDepth 100000 in
/-- Claim C4: for every candidate boundary strictly before the end of the
text, if the byte immediately preceding the boundary matches a UTF-8
2-byte lead (110xxxxx), 3-byte lead (1110xxxx) or 4-byte lead (11110xxx)
pattern, the chunk length is reduced by exactly one byte, otherwise it is
unchanged; and on 999 one-byte characters followed by one four-byte
character, with chunk size one thousand, chunk 1 is exactly the 999 one-byte
characters and chunk 2 is the whole four-byte character. -/
theorem adjust_backoff_rule :
    (∀ (text : List Nat) (position chunkSize : Nat), 1 ≤ chunkSize →
      position + chunkSize < text.length →
      adjustChunkSize text position chunkSize =
        (if (text.getD (position + chunkSize - 1) 0) &&& 0xE0 = 0xC0 ∨
            (text.getD (position + chunkSize - 1) 0) &&& 0xF0 = 0xE0 ∨
            (text.getD (position + chunkSize - 1) 0) &&& 0xF8 = 0xF0
         then chunkSize - 1 else chunkSize)) ∧
    chunks exFourByte 1000 = some [List.replicate 999 0x61, [0xF0, 0x9F, 0x98, 0x80]] := by
  constructor
  · intro text position chunkSize h1 h2
    simp only [adjustChunkSize]
    split_ifs <;> first | rfl | omega
  · decide

/-- Witness for the universally quantified part of `adjust_backoff_rule`:
at text `a C3 A9`, position 0, chunk size 2, the byte before the boundary
is the two-byte lead `0xC3`, so the chunk length is reduced to 1. -/
theorem adjust_backoff_rule_witness : adjustChunkSize [0x61, 0xC3, 0xA9] 0 2 = 1 := by
  rw [adjust_backoff_rule.1 [0x61, 0xC3, 0xA9] 0 2 (by decide) (by decide)]
  decide

/-- Any byte read below the sentinel is a real list element. -/
lemma getD_lt_length {l : List Nat} {i : Nat} (h : l.getD i 256 < 256) : i < l.length := by
  by_contra hc
  rw [List.getD_eq_default _ _ (by omega)] at h
  omega

/-- Numeric bounds carried by a well-formed 2-byte sequence. -/
lemma utf8Two_parts {b0 b1 : Nat} (h : utf8Two b0 b1 = true) :
    0xC2 ≤ b0 ∧ b0 < 0xE0 ∧ 0x80 ≤ b1 ∧ b1 < 0xC0 := by
  unfold utf8Two at h
  simp [isCont] at h
  omega

/-- Numeric bounds carried by a well-formed 3-byte sequence. -/
lemma utf8Three_parts {b0 b1 b2 : Nat} (h : utf8Three b0 b1 b2 = true) :
    0xE0 ≤ b0 ∧ b0 < 0xF0 ∧ (0x80 ≤ b1 ∧ b1 < 0xC0) ∧ (0x80 ≤ b2 ∧ b2 < 0xC0) ∧
      0x800 ≤ cp3 b0 b1 b2 ∧ ¬(0xD800 ≤ cp3 b0 b1 b2 ∧ cp3 b0 b1 b2 < 0xE000) := by
  unfold utf8Three at h
  unfold cp3 at h ⊢
  simp [isCont] at h
  omega

/-- Numeric bounds carried by a well-formed 4-byte sequence. -/
lemma utf8Four_parts {b0 b1 b2 b3 : Nat} (h : utf8Four b0 b1 b2 b3 = true) :
    0xF0 ≤ b0 ∧ b0 < 0xF5 ∧ (0x80 ≤ b1 ∧ b1 < 0xC0) ∧ (0x80 ≤ b2 ∧ b2 < 0xC0) ∧
      (0x80 ≤ b3 ∧ b3 < 0xC0) ∧ 0x10000 ≤ cp4 b0 b1 b2 b3 ∧ cp4 b0 b1 b2 b3 < 0x110000 := by
  unfold utf8Four at h
  unfold cp4 at h ⊢
  simp [isCont] at h
  omega

/-- A successful single-sequence decode consumes between 1 byte and the
whole list and yields a Unicode scalar value (in range, not a
surrogate). -/
theorem utf8DecodeOne_spec {l : List Nat} {cp k : Nat} (h : utf8DecodeOne l = some (cp, k)) :
    1 ≤ k ∧ k ≤ l.length ∧ cp < 0x110000 ∧ ¬(0xD800 ≤ cp ∧ cp < 0xE000) := by
  unfold utf8DecodeOne at h
  split at h
  next h0 =>
    have hl : 0 < l.length := getD_lt_length (by omega)
    simp only [Option.some.injEq, Prod.mk.injEq] at h
    obtain ⟨rfl, rfl⟩ := h
    exact ⟨by omega, by omega, by omega, by omega⟩
  next h0 =>
    split at h
    next h2 =>
      obtain ⟨hb0, hb0', hb1, hb1'⟩ := utf8Two_parts h2
      have hl : 1 < l.length := getD_lt_length (by omega)
      simp only [Option.some.injEq, Prod.mk.injEq] at h
      obtain ⟨rfl, rfl⟩ := h
      unfold cp2
      exact ⟨by omega, by omega, by omega, by omega⟩
    next h2 =>
      split at h
      next h3 =>
        obtain ⟨hb0, hb0', ⟨hb1, hb1'⟩, ⟨hb2, hb2'⟩, hlo, hsur⟩ := utf8Three_parts h3
        have hl : 2 < l.length := getD_lt_length (by omega)
        simp only [Option.some.injEq, Prod.mk.injEq] at h
        obtain ⟨rfl, rfl⟩ := h
        unfold cp3 at hlo hsur ⊢
        exact ⟨by omega, by omega, by omega, by omega⟩
      next h3 =>
        split at h
        next h4 =>
          obtain ⟨hb0, hb0', ⟨hb1, hb1'⟩, ⟨hb2, hb2'⟩, ⟨hb3, hb3'⟩, hlo, hhi⟩ :=
            utf8Four_parts h4
          have hl : 3 < l.length := getD_lt_length (by omega)
          simp only [Option.some.injEq, Prod.mk.injEq] at h
          obtain ⟨rfl, rfl⟩ := h
          exact ⟨by omega, by omega, by omega, by omega⟩
        next h4 => exact absurd h (by simp)

/-- Decoding one sequence only looks at the bytes it consumes, so a
suffix does not change it. -/
theorem utf8DecodeOne_append {l : List Nat} {cp k : Nat} (b : List Nat)
    (h : utf8DecodeOne l = some (cp, k)) : utf8DecodeOne (l ++ b) = some (cp, k) := by
  unfold utf8DecodeOne at h ⊢
  split at h
  next h0 =>
    have hl : 0 < l.length := getD_lt_length (by omega)
    rw [List.getD_append _ _ _ _ hl]
    rw [if_pos h0]
    exact h
  next h0 =>
    split at h
    next h2 =>
      obtain ⟨hb0, hb0', hb1, hb1'⟩ := utf8Two_parts h2
      have hl1 : 1 < l.length := getD_lt_length (by omega)
      have hl0 : 0 < l.length := by omega
      rw [List.getD_append _ _ _ _ hl0, List.getD_append _ _ _ _ hl1]
      rw [if_neg h0, if_pos h2]
      exact h
    next h2 =>
      split at h
      next h3 =>
        obtain ⟨hb0, hb0', ⟨hb1, hb1'⟩, ⟨hb2, hb2'⟩, hlo, hsur⟩ := utf8Three_parts h3
        have hl2 : 2 < l.length := getD_lt_length (by omega)
        have hl1 : 1 < l.length := by omega
        have hl0 : 0 < l.length := by omega
        rw [List.getD_append _ _ _ _ hl0, List.getD_append _ _ _ _ hl1,
          List.getD_append _ _ _ _ hl2]
        rw [if_neg h0, if_neg h2, if_pos h3]
        exact h
      next h3 =>
        split at h
        next h4 =>
          obtain ⟨hb0, hb0', ⟨hb1, hb1'⟩, ⟨hb2, hb2'⟩, ⟨hb3, hb3'⟩, hlo, hhi⟩ :=
            utf8Four_parts h4
          have hl3 : 3 < l.length := getD_lt_length (by omega)
          have hl2 : 2 < l.length := by omega
          have hl1 : 1 < l.length := by omega
          have hl0 : 0 < l.length := by omega
          rw [List.getD_append _ _ _ _ hl0, List.getD_append _ _ _ _ hl1,
            List.getD_append _ _ _ _ hl2, List.getD_append _ _ _ _ hl3]
          rw [if_neg h0, if_neg h2, if_neg h3, if_pos h4]
          exact h
        next h4 => exact absurd h (by simp)

/-- The fuel does not matter as long as it is at least the list length. -/
lemma utf8DecodeGo_fuel : ∀ fuel fuel' l, l.length ≤ fuel → l.length ≤ fuel' →
    utf8DecodeGo fuel l = utf8DecodeGo fuel' l := by
  intro fuel
  induction fuel with
  | zero =>
    intro fuel' l h h'
    rcases l with _ | ⟨b0, rest⟩
    · cases fuel' <;> rfl
    · simp at h
  | succ fuel ih =>
    intro fuel' l h h'
    rcases l with _ | ⟨b0, rest⟩
    · cases fuel' <;> rfl
    · rcases fuel' with _ | fuel2
      · simp at h'
      · simp only [utf8DecodeGo]
        rcases hone : utf8DecodeOne (b0 :: rest) with _ | ⟨cp, k⟩
        · rfl
        · obtain ⟨hk1, hk2, _, _⟩ := utf8DecodeOne_spec hone
          dsimp only
          rw [ih fuel2 ((b0 :: rest).drop k)
            (by simp at h hk2 ⊢; omega) (by simp at h' hk2 ⊢; omega)]

/-- The empty byte list decodes to no characters. -/
lemma utf8Decode_nil : utf8Decode [] = some [] := rfl

/-- Canonical unfolding of `utf8Decode`: decode one sequence, then the
rest. -/
lemma utf8Decode_cons (b0 : Nat) (rest : List Nat) :
    utf8Decode (b0 :: rest) =
      match utf8DecodeOne (b0 :: rest) with
      | none => none
      | some (cp, k) => (utf8Decode ((b0 :: rest).drop k)).map (cp :: ·) := by
  unfold utf8Decode
  simp only [List.length_cons, utf8DecodeGo]
  rcases hone : utf8DecodeOne (b0 :: rest) with _ | ⟨cp, k⟩
  · rfl
  · obtain ⟨hk1, hk2, _, _⟩ := utf8DecodeOne_spec hone
    dsimp only
    rw [utf8DecodeGo_fuel rest.length ((b0 :: rest).drop k).length ((b0 :: rest).drop k)
      (by simp at hk2 ⊢; omega) (Nat.le_refl _)]

example : utf8Decode [0x61, 0xC3, 0xA9] = some [0x61, 0xE9] := by decide

example : utf8Decode [0xE4, 0xB8, 0xAD] = some [0x4E2D] := by decide

example : utf8Decode [0xF0, 0x9F, 0x98, 0x80] = some [0x1F600] := by decide

example : utf8Decode [0xE4, 0xB8] = none := by decide

example : utf8Decode [0xC3] = none := by decide

example : utf8Decode [0x80] = none := by decide

example : utf8Decode [0xED, 0xA0, 0x80] = none := by decide

/-- Decoding concatenates: if two byte lists decode, their concatenation
decodes to the concatenation of the results (UTF-8 is a prefix-free
code).  Bounded formulation for induction on `n`. -/
theorem utf8Decode_append_bounded : ∀ (n : Nat) (a : List Nat), a.length ≤ n →
    ∀ (b x y : List Nat), utf8Decode a = some x → utf8Decode b = some y →
      utf8Decode (a ++ b) = some (x ++ y) := by
  intro n
  induction n with
  | zero =>
    intro a ha b x y hx hy
    rcases a with _ | ⟨b0, rest⟩
    · rw [utf8Decode_nil] at hx
      injection hx with hx
      subst hx
      simpa using hy
    · simp at ha
  | succ n ih =>
    intro a ha b x y hx hy
    rcases a with _ | ⟨b0, rest⟩
    · rw [utf8Decode_nil] at hx
      injection hx with hx
      subst hx
      simpa using hy
    · rw [utf8Decode_cons] at hx
      rcases hone : utf8DecodeOne (b0 :: rest) with _ | ⟨cp, k⟩
      · rw [hone] at hx
        simp at hx
      · rw [hone] at hx
        dsimp only at hx
        rcases hdx : utf8Decode ((b0 :: rest).drop k) with _ | x1
        · rw [hdx] at hx
          simp at hx
        · rw [hdx] at hx
          simp at hx
          subst hx
          obtain ⟨hk1, hk2, _, _⟩ := utf8DecodeOne_spec hone
          rw [List.cons_append, utf8Decode_cons, ← List.cons_append,
            utf8DecodeOne_append b hone]
          dsimp only
          rw [List.drop_append_of_le_length (by simpa using hk2)]
          rw [ih ((b0 :: rest).drop k) (by simp at ha hk2 ⊢; omega) b x1 y hdx hy]
          simp

/-- Every scalar value produced by `utf8Decode` is a valid Unicode scalar
value: in range and not a surrogate.  Bounded formulation. -/
theorem utf8Decode_valid_bounded : ∀ (n : Nat) (l : List Nat), l.length ≤ n →
    ∀ (cps : List Nat), utf8Decode l = some cps →
      ∀ cp ∈ cps, cp < 0x110000 ∧ ¬(0xD800 ≤ cp ∧ cp < 0xE000) := by
  intro n
  induction n with
  | zero =>
    intro l hl cps h
    rcases l with _ | ⟨b0, rest⟩
    · rw [utf8Decode_nil] at h
      injection h with h
      subst h
      simp
    · simp at hl
  | succ n ih =>
    intro l hl cps h
    rcases l with _ | ⟨b0, rest⟩
    · rw [utf8Decode_nil] at h
      injection h with h
      subst h
      simp
    · rw [utf8Decode_cons] at h
      rcases hone : utf8DecodeOne (b0 :: rest) with _ | ⟨cp, k⟩
      · rw [hone] at h
        simp at h
      · rw [hone] at h
        dsimp only at h
        rcases hdx : utf8Decode ((b0 :: rest).drop k) with _ | x1
        · rw [hdx] at h
          simp at h
        · rw [hdx] at h
          simp at h
          subst h
          obtain ⟨hk1, hk2, hv1, hv2⟩ := utf8DecodeOne_spec hone
          intro c hc
          rcases List.mem_cons.mp hc with rfl | hc
          · exact ⟨hv1, hv2⟩
          · exact ih ((b0 :: rest).drop k) (by simp at hl hk2 ⊢; omega) x1 hdx c hc

example : utf16Encode [0x61, 0xE9, 0x4E2D] = [0x61, 0xE9, 0x4E2D] := by decide

example : utf16Encode [0x1F600] = [0xD83D, 0xDE00] := by decide

example : utf16Decode [0xD83D, 0xDE00] = some [0x1F600] := by decide

example :
    (KIS.mk (some 0) true).inputLargeText (fun _ => true) (fun _ => true) [0x61] 1000 =
      some (true, [Event.down 0x61, Event.up 0x61, Event.delay 5000]) := by decide

example :
    (KIS.mk none false).inputLargeText (fun _ => true) (fun _ => true) [0x61] 1000 =
      some (false, []) := by decide

example :
    (KIS.mk (some 0) true).inputLargeText (fun _ => true) (fun _ => true)
        [0x61, 0x62, 0x63] 2 =
      some (true, [Event.down 0x61, Event.up 0x61, Event.delay 5000,
        Event.down 0x62, Event.up 0x62, Event.delay 5000, Event.delay 100000,
        Event.down 0x63, Event.up 0x63, Event.delay 5000]) := by decide

/-- Claim C5: while the injector is uninitialized, `inputLargeText`
returns failure immediately and posts zero events, for every text and
chunk size; the binding-level `simulateKeyboardInput` then also fails
with zero events. -/
theorem uninitialized_fails (k : KIS) (h : k.isInitialized = false)
    (downOk upOk : Nat → Bool) (text : List Nat) (chunkSize : Nat) :
    k.inputLargeText downOk upOk text chunkSize = some (false, []) ∧
    simulateKeyboardInput downOk upOk k text = some (false, []) := by
  constructor <;> simp [KIS.inputLargeText, simulateKeyboardInput, h]

/-- Witness for `uninitialized_fails`: a system whose event-source
creation failed, asked to type `a`. -/
theorem uninitialized_fails_witness :
    (KIS.mk none false).inputLargeText (fun _ => true) (fun _ => true) [0x61] 1000 =
        some (false, []) ∧
    simulateKeyboardInput (fun _ => true) (fun _ => true) (KIS.mk none false) [0x61] =
        some (false, []) :=
  uninitialized_fails (KIS.mk none false) (by decide) (fun _ => true) (fun _ => true)
    [0x61] 1000

/-- Claim C7 as stated fails for `KeyboardInputSystem::initialize`
itself: from a fresh world the constructor acquires handle 0; a second
direct call to the method acquires a NEW handle 1 and stores it, while
handle 0 stays live with no field referencing it — the event source is
recreated and the first handle is leaked, and the held handle after the
second call (`some 1`) differs from the one after the first (`some 0`). -/
theorem init_twice_cex :
    (KIS.construct (fun _ => true) (World.mk 0 [])).2.1 = KIS.mk (some 0) true ∧
    KIS.initSource (fun _ => true) (KIS.construct (fun _ => true) (World.mk 0 [])).1
        (KIS.construct (fun _ => true) (World.mk 0 [])).2.1 =
      (World.mk 2 [1, 0], KIS.mk (some 1) true, true) := by decide

/-- Claim C7, amended: the idempotence the code actually provides lives
in the singleton accessor `getKeyboardSystem` — whatever a first call
returned, an immediate second call returns the same world (no new event
source is created, so nothing is recreated or leaked), the same global,
and the same instance. -/
theorem getKeyboardSystem_idempotent (ok : Nat → Bool) (w w' : World)
    (g g' : Option KIS) (k : KIS)
    (h : getKeyboardSystem ok w g = (w', g', k)) :
    getKeyboardSystem ok w' g' = (w', g', k) := by
  cases g with
  | some k0 =>
    simp [getKeyboardSystem] at h
    obtain ⟨rfl, rfl, rfl⟩ := h
    simp [getKeyboardSystem]
  | none =>
    simp only [getKeyboardSystem] at h
    rcases hc : KIS.construct ok w with ⟨w1, k1, b1⟩
    rw [hc] at h
    simp at h
    obtain ⟨rfl, rfl, rfl⟩ := h
    simp [getKeyboardSystem]

/-- Witness for `getKeyboardSystem_idempotent`: after a first accessor
call constructs the singleton (handle 0), a second call changes nothing. -/
theorem getKeyboardSystem_idempotent_witness :
    getKeyboardSystem (fun _ => true) (World.mk 1 [0]) (some (KIS.mk (some 0) true)) =
      (World.mk 1 [0], some (KIS.mk (some 0) true), KIS.mk (some 0) true) :=
  getKeyboardSystem_idempotent (fun _ => true) (World.mk 0 []) (World.mk 1 [0]) none
    (some (KIS.mk (some 0) true)) (KIS.mk (some 0) true) (by decide)

/-- Claim C8: splitting the empty text yields zero chunks, and
`inputLargeText` on the empty text with an initialized injector reports
success with zero events posted. -/
theorem empty_text_trivial (S : Nat) (k : KIS) (downOk upOk : Nat → Bool)
    (h : k.isInitialized = true) :
    chunks [] S = some [] ∧
    k.inputLargeText downOk upOk [] S = some (true, []) := by
  constructor
  · rfl
  · simp [KIS.inputLargeText, h]

/-- Witness for `empty_text_trivial` at chunk size 1000. -/
theorem empty_text_trivial_witness :
    chunks [] 1000 = some [] ∧
    (KIS.mk (some 0) true).inputLargeText (fun _ => true) (fun _ => true) [] 1000 =
      some (true, []) :=
  empty_text_trivial 1000 (KIS.mk (some 0) true) (fun _ => true) (fun _ => true)
    (by decide)

/-- Claim C9: an `InsertText` result has `success` true exactly when the
keyboard simulation succeeded; on success `method` is "keyboard" and
`error` is null; on failure `method` is the empty string and `error` is a
non-empty human-readable string.  The result is a function of the one
boolean alone: no partial-success information is carried. -/
theorem insertText_result_shape (downOk upOk : Nat → Bool) (k : KIS) (text : List Nat)
    (res : InsertTextResult) (evs : List Event) (sim : Bool) (simEvs : List Event)
    (hsim : simulateKeyboardInput downOk upOk k text = some (sim, simEvs))
    (h : InsertText downOk upOk k text = some (res, evs)) :
    (res.success = true ↔ sim = true) ∧
    (res.success = true → res.method = "keyboard" ∧ res.error = none) ∧
    (res.success = false → res.method = "" ∧ ∃ e, res.error = some e ∧ e ≠ "") := by
  simp [InsertText, hsim] at h
  obtain ⟨rfl, rfl⟩ := h
  cases sim <;> simp

/-- Witness for `insertText_result_shape`: typing `a` through an
initialized system yields success, method "keyboard", null error. -/
theorem insertText_result_shape_witness :
    ((InsertTextResult.mk true "keyboard" none).success = true ↔ true = true) ∧
    ((InsertTextResult.mk true "keyboard" none).success = true →
      (InsertTextResult.mk true "keyboard" none).method = "keyboard" ∧
      (InsertTextResult.mk true "keyboard" none).error = none) ∧
    ((InsertTextResult.mk true "keyboard" none).success = false →
      (InsertTextResult.mk true "keyboard" none).method = "" ∧
      ∃ e, (InsertTextResult.mk true "keyboard" none).error = some e ∧ e ≠ "") :=
  insertText_result_shape (fun _ => true) (fun _ => true) (KIS.mk (some 0) true) [0x61]
    (InsertTextResult.mk true "keyboard" none)
    [Event.down 0x61, Event.up 0x61, Event.delay 5000] true
    [Event.down 0x61, Event.up 0x61, Event.delay 5000] (by decide) (by decide)

/-- Claim C10: a chunk's delivery succeeds exactly when its bytes decode
(decode failure is the only failure mode); on decode success the trace is
the per-character loop's trace regardless of the event-creation oracles;
and per character, a failed key-down creation skips the character
entirely (no key-down, no key-up, no inter-character delay) while a
failed key-up creation posts a key-down without its key-up — both still
within a successful chunk. -/
theorem chunk_delivery_modes (downOk upOk : Nat → Bool) (chunk : List Nat) :
    ((inputUnicodeText downOk upOk chunk).1 = true ↔ (utf8ToUtf16 chunk).isSome = true) ∧
    (∀ units, utf8ToUtf16 chunk = some units →
      inputUnicodeText downOk upOk chunk = (true, charEvents downOk upOk 0 units)) ∧
    (∀ i u us, charEvents downOk upOk i (u :: us) =
      (if downOk i = false then []
       else if upOk i = false then [Event.down u, Event.delay 5000]
       else [Event.down u, Event.up u, Event.delay 5000]) ++
        charEvents downOk upOk (i + 1) us) := by
  refine ⟨?_, ?_, ?_⟩
  · unfold inputUnicodeText
    cases h : utf8ToUtf16 chunk <;> simp
  · intro units hu
    simp [inputUnicodeText, hu]
  · intro i u us
    cases hd : downOk i <;> cases hu : upOk i <;> simp [charEvents, hd, hu]

/-- Witness for `chunk_delivery_modes`: on chunk `ab` with a key-down
oracle that succeeds only at loop index 1 and a key-up oracle that always
fails, the chunk still succeeds, `a` is skipped entirely, and `b` gets a
key-down with no key-up. -/
theorem chunk_delivery_modes_witness :
    inputUnicodeText (fun i => decide (i = 1)) (fun _ => false) [0x61, 0x62] =
      (true, [Event.down 0x62, Event.delay 5000]) := by
  rw [(chunk_delivery_modes (fun i => decide (i = 1)) (fun _ => false) [0x61, 0x62]).2.1
      [0x61, 0x62] (by decide)]
  decide

/-- If the chunking loop finishes at a position past the end of the text,
it produced no further chunks. -/
lemma chunksGo_nil {text : List Nat} {S fuel position : Nat} {l : List (List Nat)}
    (h : chunksGo text S fuel position = some l) (hp : ¬ position < text.length) :
    l = [] := by
  cases fuel with
  | zero => simp [chunksGo, hp] at h; exact h
  | succ fuel => simp [chunksGo, hp] at h; exact h

/-- If the chunking loop finishes from a position strictly inside the
text, it produced at least one further chunk. -/
lemma chunksGo_ne_nil {text : List Nat} {S fuel position : Nat} {l : List (List Nat)}
    (h : chunksGo text S fuel position = some l) (hp : position < text.length) :
    l ≠ [] := by
  cases fuel with
  | zero => simp [chunksGo, hp] at h
  | succ fuel =>
    simp only [chunksGo, if_pos hp] at h
    split at h
    · injection h with h
      subst h
      simp
    · exact absurd h (by simp)

/-- The delivery loop agrees with `runChunks` on the chunk list that the
chunking loop produces from the same state. -/
lemma deliverGo_eq_runChunks (downOk upOk : Nat → Bool) (text : List Nat) (S : Nat) :
    ∀ fuel position l, chunksGo text S fuel position = some l →
      deliverGo downOk upOk text S fuel position = some (runChunks downOk upOk l) := by
  intro fuel
  induction fuel with
  | zero =>
    intro position l h
    have hp : ¬ position < text.length := by
      by_contra hp
      simp [chunksGo, hp] at h
    have := chunksGo_nil h hp
    subst this
    simp [deliverGo, hp, runChunks]
  | succ fuel ih =>
    intro position l h
    by_cases hp : position < text.length
    · simp only [chunksGo, if_pos hp] at h
      rcases hrec : chunksGo text S fuel
          (position + adjustChunkSize text position (min S (text.length - position))) with
        _ | rest
      · rw [hrec] at h; exact absurd h (by simp)
      · rw [hrec] at h
        injection h with h
        subst h
        simp only [deliverGo, if_pos hp]
        rcases hin : inputTextInternal downOk upOk
            ((text.drop position).take
              (adjustChunkSize text position (min S (text.length - position)))) with
          ⟨ok1, evs⟩
        cases ok1 with
        | false => simp [runChunks, hin]
        | true =>
          by_cases hp2 : position +
              adjustChunkSize text position (min S (text.length - position)) < text.length
          · have hrest : rest ≠ [] := chunksGo_ne_nil hrec hp2
            rw [ih _ _ hrec]
            rcases rest with _ | ⟨r0, rs⟩
            · exact absurd rfl hrest
            · simp only [if_pos hp2, runChunks, hin]
          · have hrest : rest = [] := chunksGo_nil hrec hp2
            subst hrest
            simp [if_neg hp2, runChunks, hin]
    · have := chunksGo_nil h hp
      subst this
      simp [deliverGo, hp, runChunks]

/-- In a trace of successfully delivered chunks, each chunk contributes
its own events followed by the inter-chunk delay. -/
lemma preTrace_cons (downOk upOk : Nat → Bool) (c : List Nat) (pre : List (List Nat)) :
    preTrace downOk upOk (c :: pre) =
      (inputTextInternal downOk upOk c).2 ++
        Event.delay 100000 :: preTrace downOk upOk pre := by
  simp [preTrace]

/-- Delivering `pre ++ bad :: post` where every chunk of `pre` decodes
and `bad` does not: the run fails, the trace is exactly the events of
`pre` (with their trailing inter-chunk delays), and nothing of `bad` or
`post` is delivered. -/
lemma runChunks_abort (downOk upOk : Nat → Bool) (post : List (List Nat))
    (bad : List Nat) (hbad : utf8ToUtf16 bad = none) :
    ∀ pre, (∀ c ∈ pre, (utf8ToUtf16 c).isSome = true) →
      runChunks downOk upOk (pre ++ bad :: post) =
        (false, preTrace downOk upOk pre) := by
  intro pre
  induction pre with
  | nil =>
    intro _
    simp [runChunks, inputTextInternal, inputUnicodeText, hbad, preTrace]
  | cons c pre ih =>
    intro hpre
    have hc : (utf8ToUtf16 c).isSome = true := hpre c (by simp)
    rcases hu : utf8ToUtf16 c with _ | units
    · rw [hu] at hc; simp at hc
    · have hin : inputTextInternal downOk upOk c = (true, charEvents downOk upOk 0 units) := by
        simp [inputTextInternal, inputUnicodeText, hu]
      have ihh := ih (fun d hd => hpre d (by simp [hd]))
      rcases hsplit : pre ++ bad :: post with _ | ⟨d, ds⟩
      · exact absurd hsplit (by simp)
      · rw [hsplit] at ihh
        rw [preTrace_cons, hin]
        simp only [List.cons_append, hsplit, runChunks, hin, ihh]
        simp only [show pre.append (bad :: post) = d :: ds from hsplit, ihh]

/-- Claim C6: in a multi-chunk insertion, when a chunk fails to deliver
(its bytes do not decode), the whole operation returns failure, no events
are posted for the failing chunk or for any chunk after it, and the
events already posted for the earlier chunks remain in the trace exactly
as delivered (nothing is undone). -/
theorem chunk_failure_aborts (downOk upOk : Nat → Bool) (k : KIS) (text : List Nat)
    (S : Nat) (pre post : List (List Nat)) (bad : List Nat)
    (hk : k.isInitialized = true) (hlen : S < text.length)
    (hcs : chunks text S = some (pre ++ bad :: post))
    (hpre : ∀ c ∈ pre, (utf8ToUtf16 c).isSome = true)
    (hbad : utf8ToUtf16 bad = none) :
    k.inputLargeText downOk upOk text S = some (false, preTrace downOk upOk pre) := by
  have hne : text ≠ [] := by
    intro h
    subst h
    simp at hlen
  simp only [KIS.inputLargeText, hk, hne, hlen, if_pos, if_neg, Bool.true_eq_false,
    if_false, reduceIte]
  rw [deliverGo_eq_runChunks downOk upOk text S text.length 0 _ hcs]
  rw [runChunks_abort downOk upOk post bad hbad pre hpre]

/-- Witness for `chunk_failure_aborts`: the five-byte text
`61 61 E4 B8 AD` (`aa` then U+4E2D) with chunk size 2 splits into
`[61 61]`, `[E4 B8]`, `[AD]`; the second chunk cuts the three-byte
character (its continuation byte `B8` before the boundary defeats the
one-byte backoff), so delivery aborts after the first chunk's events. -/
theorem chunk_failure_aborts_witness :
    (KIS.mk (some 0) true).inputLargeText (fun _ => true) (fun _ => true)
        [0x61, 0x61, 0xE4, 0xB8, 0xAD] 2 =
      some (false, [Event.down 0x61, Event.up 0x61, Event.delay 5000,
        Event.down 0x61, Event.up 0x61, Event.delay 5000, Event.delay 100000]) := by
  rw [chunk_failure_aborts (fun _ => true) (fun _ => true) (KIS.mk (some 0) true)
      [0x61, 0x61, 0xE4, 0xB8, 0xAD] 2 [[0x61, 0x61]] [[0xAD]] [0xE4, 0xB8]
      (by decide) (by decide) (by decide) (by decide) (by decide)]
  decide

/-- A basic-plane (single-unit) code unit at the front of a UTF-16
sequence decodes as itself. -/
lemma utf16Decode_bmp {u : Nat} (rest : List Nat) (h : u < 0xD800 ∨ 0xE000 ≤ u) :
    utf16Decode (u :: rest) = (utf16Decode rest).map (u :: ·) := by
  have hb : (decide (u < 0xD800) || decide (0xE000 ≤ u)) = true := by
    rcases h with h | h <;> simp [h]
  rcases rest with _ | ⟨u2, rest⟩
  · show (if (decide (u < 0xD800) || decide (0xE000 ≤ u)) = true then some [u] else none) =
      (utf16Decode []).map (u :: ·)
    rw [hb]
    rfl
  · show (if (decide (u < 0xD800) || decide (0xE000 ≤ u)) = true then
        (utf16Decode (u2 :: rest)).map (u :: ·)
      else if u < 0xDC00 then
        if (decide (0xDC00 ≤ u2) && decide (u2 < 0xE000)) = true then
          (utf16Decode rest).map ((0x10000 + (u - 0xD800) * 0x400 + (u2 - 0xDC00)) :: ·)
        else none
      else none) = (utf16Decode (u2 :: rest)).map (u :: ·)
    rw [hb]
    rfl

/-- A surrogate pair at the front of a UTF-16 sequence decodes to the
supplementary-plane scalar value it encodes. -/
lemma utf16Decode_pair {hi lo : Nat} (rest : List Nat)
    (h1 : 0xD800 ≤ hi) (h2 : hi < 0xDC00) (h3 : 0xDC00 ≤ lo) (h4 : lo < 0xE000) :
    utf16Decode (hi :: lo :: rest) =
      (utf16Decode rest).map ((0x10000 + (hi - 0xD800) * 0x400 + (lo - 0xDC00)) :: ·) := by
  have hb : (decide (hi < 0xD800) || decide (0xE000 ≤ hi)) = false := by
    simp
    omega
  have hb3 : (decide (0xDC00 ≤ lo) && decide (lo < 0xE000)) = true := by
    simp
    omega
  show (if (decide (hi < 0xD800) || decide (0xE000 ≤ hi)) = true then
      (utf16Decode (lo :: rest)).map (hi :: ·)
    else if hi < 0xDC00 then
      if (decide (0xDC00 ≤ lo) && decide (lo < 0xE000)) = true then
        (utf16Decode rest).map ((0x10000 + (hi - 0xD800) * 0x400 + (lo - 0xDC00)) :: ·)
      else none
    else none) =
    (utf16Decode rest).map ((0x10000 + (hi - 0xD800) * 0x400 + (lo - 0xDC00)) :: ·)
  rw [hb]
  simp only [Bool.false_eq_true, if_false]
  rw [if_pos h2, if_pos hb3]

/-- Re-encoding to UTF-16 is semantically faithful: decoding the encoded
code-unit sequence of any list of Unicode scalar values gives back
exactly that list. -/
lemma utf16_roundtrip (cps : List Nat)
    (h : ∀ cp ∈ cps, cp < 0x110000 ∧ ¬(0xD800 ≤ cp ∧ cp < 0xE000)) :
    utf16Decode (utf16Encode cps) = some cps := by
  induction cps with
  | nil => rfl
  | cons cp cps ih =>
    obtain ⟨hv1, hv2⟩ := h cp (by simp)
    have ih2 := ih (fun c hc => h c (by simp [hc]))
    by_cases hbmp : cp < 0x10000
    · have he : utf16Encode (cp :: cps) = cp :: utf16Encode cps := by
        simp [utf16Encode, utf16EncodeChar, hbmp]
      rw [he, utf16Decode_bmp _ (by omega), ih2]
      rfl
    · have he : utf16Encode (cp :: cps) =
          (0xD800 + (cp - 0x10000) / 0x400) ::
            (0xDC00 + (cp - 0x10000) % 0x400) :: utf16Encode cps := by
        simp [utf16Encode, utf16EncodeChar, hbmp]
      rw [he, utf16Decode_pair _ (by omega) (by omega) (by omega) (by omega), ih2]
      simp
      omega

/-- A byte list without NUL bytes passes through the C-string boundary
unchanged. -/
lemma cString_of_ne_zero {l : List Nat} (h : (0 : Nat) ∉ l) : cString l = l := by
  induction l with
  | nil => rfl
  | cons a l ih =>
    have ha : a ≠ 0 := fun he => h (by simp [he])
    have ih2 := ih (fun hc => h (List.mem_cons_of_mem a hc))
    simp [cString] at ih2 ⊢
    exact ⟨ha, ih2⟩

lemma downs_append (a b : List Event) : downs (a ++ b) = downs a ++ downs b := by
  induction a with
  | nil => rfl
  | cons e es ih => cases e <;> simp [downs, ih]

/-- With always-succeeding event creation, the character loop posts a
key-down, a key-up and the inter-character delay for every unit. -/
lemma charEvents_true (units : List Nat) : ∀ i,
    charEvents (fun _ => true) (fun _ => true) i units =
      units.flatMap (fun u => [Event.down u, Event.up u, Event.delay 5000]) := by
  induction units with
  | nil => intro i; rfl
  | cons u us ih => intro i; simp [charEvents, ih]

lemma downs_flatTrace (units : List Nat) :
    downs (units.flatMap (fun u => [Event.down u, Event.up u, Event.delay 5000])) = units := by
  induction units with
  | nil => rfl
  | cons u us ih =>
    rw [List.flatMap_cons, downs_append, ih]
    rfl

/-- Whenever the chunking loop completes, its chunks concatenate to the
remaining text — for every chunk size, not just ≥ 2. -/
lemma chunksGo_flatten (text : List Nat) (S : Nat) : ∀ fuel position l,
    chunksGo text S fuel position = some l → l.flatten = text.drop position := by
  intro fuel
  induction fuel with
  | zero =>
    intro position l h
    have hp : ¬ position < text.length := by
      by_contra hp
      simp [chunksGo, hp] at h
    have := chunksGo_nil h hp
    subst this
    simp [List.drop_eq_nil_of_le (by omega : text.length ≤ position)]
  | succ fuel ih =>
    intro position l h
    by_cases hp : position < text.length
    · simp only [chunksGo, if_pos hp] at h
      rcases hrec : chunksGo text S fuel
          (position + adjustChunkSize text position (min S (text.length - position))) with
        _ | rest
      · rw [hrec] at h
        exact absurd h (by simp)
      · rw [hrec] at h
        injection h with h
        subst h
        rw [List.flatten_cons, ih _ _ hrec]
        exact List.drop_take_append_drop text position _
    · have := chunksGo_nil h hp
      subst this
      simp [List.drop_eq_nil_of_le (by omega : text.length ≤ position)]

lemma chunks_flatten {text : List Nat} {S : Nat} {cs : List (List Nat)}
    (h : chunks text S = some cs) : cs.flatten = text := by
  simpa using chunksGo_flatten text S text.length 0 cs h

/-- Decoding distributes over a list of separately decodable chunks. -/
lemma utf8Decode_flatten : ∀ cs : List (List Nat),
    (∀ c ∈ cs, (utf8Decode c).isSome = true) →
      utf8Decode cs.flatten = some ((cs.map fun c => (utf8Decode c).getD []).flatten) := by
  intro cs
  induction cs with
  | nil => intro _; rfl
  | cons c cs ih =>
    intro h
    have hc := h c (by simp)
    rcases hd : utf8Decode c with _ | d
    · rw [hd] at hc
      simp at hc
    · have ihh := ih (fun e he => h e (by simp [he]))
      rw [List.flatten_cons,
        utf8Decode_append_bounded c.length c (Nat.le_refl _) cs.flatten d _ hd ihh]
      simp [hd]

/-- Encoding to UTF-16 distributes over concatenation of scalar lists. -/
lemma flatten_utf16 : ∀ ds : List (List Nat),
    (ds.map utf16Encode).flatten = utf16Encode ds.flatten := by
  intro ds
  induction ds with
  | nil => rfl
  | cons d ds ih => simp [utf16Encode, ih]

/-- From a position at or past the end of the text the chunking loop
stops at once, producing no chunks. -/
lemma chunksGo_stop {text : List Nat} {S fuel position : Nat}
    (hp : ¬ position < text.length) : chunksGo text S fuel position = some [] := by
  cases fuel <;> simp [chunksGo, hp]

/-- One unfolding of the chunking loop at a position inside the text. -/
lemma chunksGo_step (text : List Nat) (S fuel position : Nat) (hp : position < text.length) :
    chunksGo text S (fuel + 1) position =
      match chunksGo text S fuel
          (position + adjustChunkSize text position (min S (text.length - position))) with
      | some rest => some (((text.drop position).take
          (adjustChunkSize text position (min S (text.length - position)))) :: rest)
      | none => none := by
  simp [chunksGo, hp]

/-- A text no longer than the maximum chunk size is one single chunk. -/
lemma chunks_single (text : List Nat) (S : Nat) (ht : text ≠ []) (hle : text.length ≤ S) :
    chunks text S = some [text] := by
  rcases text with _ | ⟨b0, rest⟩
  · exact absurd rfl ht
  have hadj : adjustChunkSize (b0 :: rest) 0
      (min S ((b0 :: rest).length - 0)) = (b0 :: rest).length := by
    simp only [adjustChunkSize, Nat.sub_zero, Nat.zero_add, Nat.min_eq_right hle]
    rw [if_pos (Nat.le_refl _)]
  show chunksGo (b0 :: rest) S (rest.length + 1) 0 = some [b0 :: rest]
  rw [chunksGo_step _ _ _ _ (by simp), hadj,
    chunksGo_stop (by simp : ¬ 0 + (b0 :: rest).length < (b0 :: rest).length)]
  simp

/-- One unfolding of `runChunks` on a non-empty chunk list. -/
lemma runChunks_cons (downOk upOk : Nat → Bool) (c : List Nat) (cs : List (List Nat)) :
    runChunks downOk upOk (c :: cs) =
      match inputTextInternal downOk upOk c with
      | (false, evs) => (false, evs)
      | (true, evs) =>
        match cs with
        | [] => (true, evs)
        | _ :: _ =>
          ((runChunks downOk upOk cs).1,
            evs ++ Event.delay 100000 :: (runChunks downOk upOk cs).2) := by
  rw [runChunks]

/-- Delivery of a chunk list in which every chunk's bytes convert to
UTF-16, with always-succeeding event creation: the run succeeds and the
key-down payloads are exactly the concatenation of the chunks' code
units. -/
lemma runChunks_ok : ∀ cs : List (List Nat),
    (∀ c ∈ cs, (utf8ToUtf16 c).isSome = true) →
      (runChunks (fun _ => true) (fun _ => true) cs).1 = true ∧
      downs (runChunks (fun _ => true) (fun _ => true) cs).2 =
        (cs.map fun c => (utf8ToUtf16 c).getD []).flatten := by
  intro cs
  induction cs with
  | nil => intro _; exact ⟨rfl, rfl⟩
  | cons c cs ih =>
    intro h
    have hc := h c (by simp)
    rcases hu : utf8ToUtf16 c with _ | units
    · rw [hu] at hc
      simp at hc
    · have hin : inputTextInternal (fun _ => true) (fun _ => true) c =
          (true, charEvents (fun _ => true) (fun _ => true) 0 units) := by
        simp [inputTextInternal, inputUnicodeText, hu]
      obtain ⟨ih1, ih2⟩ := ih (fun d hd => h d (by simp [hd]))
      rcases cs with _ | ⟨c2, cs2⟩
      · rw [runChunks_cons, hin]
        dsimp only
        refine ⟨rfl, ?_⟩
        simp [charEvents_true, downs_flatTrace, hu]
      · rw [runChunks_cons, hin]
        dsimp only
        refine ⟨ih1, ?_⟩
        rw [downs_append, charEvents_true, downs_flatTrace]
        show units ++ downs (Event.delay 100000 :: _) = _
        simp only [downs, ih2]
        simp [hu]

/-- Claim C2, amended: for every text accepted by one insertion call that
contains no NUL byte (which the C-string boundary would silently
truncate) and whose produced chunks each decode as UTF-8 (the single-byte
backoff sufficed at every boundary), and with every event creation
succeeding, the sequence of code units delivered as key-down events is
exactly the UTF-16 re-encoding of the text's character sequence, and
decoding it back yields the input's characters unchanged: no character is
split across a chunk boundary, duplicated, or dropped.  (When a chunk
boundary does split a character, the chunk fails to decode and delivery
aborts with characters dropped, see `reencoding_cex`.) -/
theorem reencoding_preserves_characters (k : KIS) (text cps : List Nat) (S : Nat)
    (cs : List (List Nat))
    (hk : k.isInitialized = true)
    (hnul : (0 : Nat) ∉ text)
    (hdec : utf8Decode text = some cps)
    (hcs : chunks text S = some cs)
    (hchunks : ∀ c ∈ cs, (utf8Decode c).isSome = true) :
    ∃ evs, k.inputLargeText (fun _ => true) (fun _ => true) text S = some (true, evs) ∧
      downs evs = utf16Encode cps ∧ utf16Decode (utf16Encode cps) = some cps := by
  have hrt : utf16Decode (utf16Encode cps) = some cps :=
    utf16_roundtrip cps (utf8Decode_valid_bounded text.length text (Nat.le_refl _) cps hdec)
  by_cases hemp : text = []
  · subst hemp
    rw [utf8Decode_nil] at hdec
    injection hdec with hdec
    subst hdec
    refine ⟨[], ?_, rfl, hrt⟩
    simp [KIS.inputLargeText, hk]
  · have hfl : cs.flatten = text := chunks_flatten hcs
    have hzero : ∀ c ∈ cs, (0 : Nat) ∉ c := by
      intro c hc hin
      exact hnul (hfl ▸ List.mem_flatten.mpr ⟨c, hc, hin⟩)
    have hconv : ∀ c ∈ cs, utf8ToUtf16 c = some (utf16Encode ((utf8Decode c).getD [])) := by
      intro c hc
      have h1 := hchunks c hc
      rcases hd : utf8Decode c with _ | d
      · rw [hd] at h1
        simp at h1
      · simp [utf8ToUtf16, cString_of_ne_zero (hzero c hc), hd]
    have hsome : ∀ c ∈ cs, (utf8ToUtf16 c).isSome = true := by
      intro c hc
      rw [hconv c hc]
      rfl
    have hflat2 : (cs.map fun c => (utf8Decode c).getD []).flatten = cps := by
      have hh := utf8Decode_flatten cs hchunks
      rw [hfl, hdec] at hh
      injection hh with hh
      exact hh.symm
    have hunits : (cs.map fun c => (utf8ToUtf16 c).getD []).flatten = utf16Encode cps := by
      have hm : (cs.map fun c => (utf8ToUtf16 c).getD []) =
          (cs.map fun c => (utf8Decode c).getD []).map utf16Encode := by
        rw [List.map_map]
        exact List.map_congr_left (fun c hc => by rw [hconv c hc]; rfl)
      rw [hm, flatten_utf16, hflat2]
    by_cases hlen : S < text.length
    · obtain ⟨hok, hdowns⟩ := runChunks_ok cs hsome
      have hpair : runChunks (fun _ => true) (fun _ => true) cs =
          (true, (runChunks (fun _ => true) (fun _ => true) cs).2) := Prod.ext hok rfl
      refine ⟨(runChunks (fun _ => true) (fun _ => true) cs).2, ?_, ?_, hrt⟩
      · simp only [KIS.inputLargeText, hk, Bool.true_eq_false, if_false, if_neg hemp,
          if_pos hlen]
        rw [deliverGo_eq_runChunks _ _ text S text.length 0 cs hcs, hpair]
      · rw [hdowns, hunits]
    · have hle : text.length ≤ S := by omega
      have hcs1 : cs = [text] := by
        have hh := chunks_single text S hemp hle
        rw [hcs] at hh
        exact Option.some.inj hh
      subst hcs1
      have hconvt := hconv text (by simp)
      rw [hdec] at hconvt
      simp only [Option.getD_some] at hconvt
      refine ⟨charEvents (fun _ => true) (fun _ => true) 0 (utf16Encode cps), ?_, ?_, hrt⟩
      · simp only [KIS.inputLargeText, hk, Bool.true_eq_false, if_false, if_neg hemp,
          if_neg hlen]
        simp [inputTextInternal, inputUnicodeText, hconvt]
      · rw [charEvents_true, downs_flatTrace]

/-- Witness for `reencoding_preserves_characters`: the text `aé`
(bytes `61 C3 A9`) at chunk size 2 splits into `[61]` and `[C3 A9]`, both
decodable, and delivers exactly the characters `a`, `é`. -/
theorem reencoding_preserves_characters_witness :
    ∃ evs, (KIS.mk (some 0) true).inputLargeText (fun _ => true) (fun _ => true)
        [0x61, 0xC3, 0xA9] 2 = some (true, evs) ∧
      downs evs = utf16Encode [0x61, 0xE9] ∧
      utf16Decode (utf16Encode [0x61, 0xE9]) = some [0x61, 0xE9] :=
  reencoding_preserves_characters (KIS.mk (some 0) true) [0x61, 0xC3, 0xA9] [0x61, 0xE9] 2
    [[0x61], [0xC3, 0xA9]] (by decide) (by decide) (by decide) (by decide) (by decide)

set_option maxRecDepth 400000 in
/-- Claim C2 as stated fails: `exSplit` is a valid 1000-character text
accepted by one insertion call, but the call splits the three-byte
character across the chunk boundary, the first chunk fails to decode,
and the operation aborts having delivered zero keystroke events — the
delivered character sequence (empty) is not the input's 1000
characters. -/
theorem reencoding_cex :
    utf8Decode exSplit = some (List.replicate 998 0x61 ++ [0x4E2D, 0x61]) ∧
    simulateKeyboardInput (fun _ => true) (fun _ => true) (KIS.mk (some 0) true) exSplit =
      some (false, []) ∧
    downs [] ≠ utf16Encode (List.replicate 998 0x61 ++ [0x4E2D, 0x61]) := by
  refine ⟨by decide, by decide, by decide⟩
